import Mathlib

/-!
Verification of the ConnectUs backend relay (src/server.js, with the
`user_chats_view` aggregation resolver from the sibling server variant).

The JavaScript source is shallowly embedded as follows:
* Bytes are `Fin 256`; Node `Buffer`s are `List Byte`.
* The AES-256 block permutation and the UTF-8 string/`Buffer` conversion
  performed by `Buffer.from(text)` / `buffer.toString()` are library
  primitives, not code of this repository; they are abstracted as the
  parameter structure `CryptoPrims`, constrained by `GoodCrypto`
  (the block cipher is a keyed permutation of 16-byte blocks, and the
  byte codec round-trips).  Everything the repository's code adds on top
  of them — hex encoding, the `"IV:ciphertext"` token format,
  `text.split(':')`-based parsing, CBC chaining with PKCS#7 padding as
  performed by `crypto.createCipheriv('aes-256-cbc', ...)`, the
  try/catch that maps every decryption failure to a fixed sentinel
  string — is modelled concretely.
* The process-wide `secretKey` is a parameter `k`; the startup code
  (src/server.js lines 50–65) guarantees it holds 32 bytes in every
  branch, so no key-length failure is reachable and none is modelled.
* `randomBytes(16)` (the fresh IV drawn by `encrypt`) and `new Date()`
  (the timestamp taken by `postMessage`) are modelled as explicit
  arguments `iv` and `now`.
* `id` is stored by the source as `String(messages.length)` and
  `createdAt` as `new Date(now).toISOString()`; both encodings are
  injective (and the latter is order-preserving), so the embedding keeps
  the underlying numbers: `id : Nat` and `createdAt : Nat` (epoch
  milliseconds).  `user_chats_view` compares timestamps through
  `new Date(isoString)`, which recovers exactly this number.
* `fs.writeFileSync` may throw; the outcome of one write attempt is the
  explicit argument `WriteOutcome`.  The persisted file is the `disk`
  field of `ServerState`.
-/

namespace ConnectUs

/-- A byte value, as held in a Node `Buffer` cell. -/
abbrev Byte := Fin 256

/-- Truncate a natural number to a byte (every number we feed it is
already below 256; the `%` only discharges the bound). -/
def mkByte (n : Nat) : Byte := ⟨n % 256, Nat.mod_lt _ (by norm_num)⟩

/-- Lower-case hex digit for `n < 16`, as produced by
`buffer.toString('hex')`. -/
def hexDigitChar (n : Nat) : Char :=
  if n < 10 then Char.ofNat (48 + n) else Char.ofNat (87 + n)

/-- The two hex digits of one byte, as produced by
`buffer.toString('hex')`. -/
def byteToHex (b : Byte) : List Char :=
  [hexDigitChar (b.val / 16), hexDigitChar (b.val % 16)]

/-- `buffer.toString('hex')`: hex rendering of a whole buffer. -/
def bytesToHex (bs : List Byte) : List Char := bs.flatMap byteToHex

/-- Numeric value of one hex digit (`0-9`, `a-f`, `A-F`), or `none` for
any other character. -/
def hexDigitVal (c : Char) : Option Nat :=
  if 48 ≤ c.toNat ∧ c.toNat ≤ 57 then some (c.toNat - 48)
  else if 97 ≤ c.toNat ∧ c.toNat ≤ 102 then some (c.toNat - 87)
  else if 65 ≤ c.toNat ∧ c.toNat ≤ 70 then some (c.toNat - 55)
  else none

/-- `Buffer.from(s, 'hex')`: Node decodes hex two characters at a time
and silently truncates at the first pair that is not two hex digits
(also dropping a trailing unpaired character); it never throws. -/
def hexDecode : List Char → List Byte
  | c1 :: c2 :: rest =>
    match hexDigitVal c1, hexDigitVal c2 with
    | some h, some l => mkByte (16 * h + l) :: hexDecode rest
    | _, _ => []
  | _ => []

/-- JavaScript `string.split(sep)` for a one-character separator: the
result is always nonempty, and adjacent separators produce empty
groups. -/
def jsSplit (sep : Char) : List Char → List (List Char)
  | [] => [[]]
  | c :: rest =>
    if c = sep then [] :: jsSplit sep rest
    else
      match jsSplit sep rest with
      | [] => [[c]]
      | g :: gs => (c :: g) :: gs

/-- JavaScript `array.join(sep)` for a one-character separator. -/
def joinWith (sep : Char) : List (List Char) → List Char
  | [] => []
  | [g] => g
  | g :: gs => g ++ sep :: joinWith sep gs

/-- The library primitives used by the codec and not defined by this
repository: the AES-256 keyed block permutation behind
`createCipheriv('aes-256-cbc', key, iv)` (`E` encrypts one 16-byte
block under a 32-byte key, `D` inverts it), and the UTF-8 conversions
`Buffer.from(text)` (`utf8Enc`) and `buffer.toString()`
(`utf8DecLossy`, which is total: invalid sequences are replaced, never
thrown on). -/
structure CryptoPrims where
  E : List Byte → List Byte → List Byte
  D : List Byte → List Byte → List Byte
  utf8Enc : String → List Byte
  utf8DecLossy : List Byte → String

/-- The contract the real library primitives satisfy: the block cipher
is a length-preserving keyed permutation on 16-byte blocks, and decoding
the UTF-8 encoding of a string gives the string back. -/
structure GoodCrypto (P : CryptoPrims) : Prop where
  enc_len : ∀ k b, b.length = 16 → (P.E k b).length = 16
  dec_enc : ∀ k b, b.length = 16 → P.D k (P.E k b) = b
  utf8_roundtrip : ∀ s, P.utf8DecLossy (P.utf8Enc s) = s

/-- Byte-wise XOR of two equal-length buffers (the CBC chaining step). -/
def zipXor (a b : List Byte) : List Byte :=
  List.zipWith (fun x y => mkByte (x.val ^^^ y.val)) a b

/-- Fuelled splitting of a buffer into 16-byte blocks. -/
def toBlocksF : Nat → List Byte → List (List Byte)
  | _, [] => []
  | 0, l => [l]
  | n + 1, l => l.take 16 :: toBlocksF n (l.drop 16)

/-- Split a buffer into consecutive 16-byte blocks (the last block is
shorter if the length is not a multiple of 16). -/
def toBlocks (l : List Byte) : List (List Byte) := toBlocksF l.length l

/-- PKCS#7 padding, as applied by `cipher.final()` for `aes-256-cbc`:
append `n` copies of the byte `n`, where `n = 16 - len % 16 ∈ [1,16]`. -/
def pkcs7pad (s : List Byte) : List Byte :=
  s ++ List.replicate (16 - s.length % 16) (mkByte (16 - s.length % 16))

/-- PKCS#7 padding check and removal, as performed by
`decipher.final()`: the last byte `n` must lie in `[1,16]` and the last
`n` bytes must all equal `n`, otherwise decryption fails. -/
def pkcs7unpad (s : List Byte) : Option (List Byte) :=
  match s.getLast? with
  | none => none
  | some n =>
    if 1 ≤ n.val ∧ n.val ≤ 16 ∧ n.val ≤ s.length ∧
        (s.drop (s.length - n.val)).all (fun b => b = n) then
      some (s.take (s.length - n.val))
    else none

/-- CBC encryption of a list of 16-byte blocks: each plaintext block is
XORed with the previous ciphertext block (initially the IV) and then
enciphered. -/
def cbcEncBlocks (P : CryptoPrims) (k : List Byte) :
    List Byte → List (List Byte) → List (List Byte)
  | _, [] => []
  | prev, b :: bs =>
    let c := P.E k (zipXor b prev)
    c :: cbcEncBlocks P k c bs

/-- CBC decryption of a list of 16-byte blocks. -/
def cbcDecBlocks (P : CryptoPrims) (k : List Byte) :
    List Byte → List (List Byte) → List (List Byte)
  | _, [] => []
  | prev, c :: cs => zipXor (P.D k c) prev :: cbcDecBlocks P k c cs

/-- What `cipher.update(text)` + `cipher.final()` produce for
`aes-256-cbc`: pad, then CBC-encrypt block by block. -/
def cbcEncryptBytes (P : CryptoPrims) (k iv pt : List Byte) : List Byte :=
  (cbcEncBlocks P k iv (toBlocks (pkcs7pad pt))).flatten

/-- What `decipher.update(ct)` + `decipher.final()` produce for
`aes-256-cbc`: fail (`none` models the thrown error) unless the
ciphertext is a positive multiple of the block size, then CBC-decrypt
and strip the padding, failing if the padding check fails. -/
def nodeCbcDecrypt (P : CryptoPrims) (k iv ct : List Byte) : Option (List Byte) :=
  if ct.length % 16 = 0 ∧ ct.length ≠ 0 then
    pkcs7unpad (cbcDecBlocks P k iv (toBlocks ct)).flatten
  else none

/-- The fixed placeholder returned by `decrypt` when anything in the
pipeline throws (src/server.js line 86). -/
def sentinel : String := "[Error: Could not decrypt message]"

/-- src/server.js lines 67–74: encrypt the UTF-8 bytes of `text` under
key `k` with the freshly drawn 16-byte IV `iv`, and render the token
as `iv.toString('hex') + ':' + encrypted.toString('hex')`. -/
def encrypt (P : CryptoPrims) (k iv : List Byte) (text : String) : String :=
  ⟨bytesToHex iv ++ ':' :: bytesToHex (cbcEncryptBytes P k iv (P.utf8Enc text))⟩

/-- src/server.js lines 76–88: split the token on `':'`, hex-decode the
first part as the IV and the re-joined remainder as the ciphertext,
CBC-decrypt and UTF-8-decode.  The surrounding try/catch maps every
failure (`createDecipheriv` rejecting a non-16-byte IV, or
`decipher.final()` rejecting the ciphertext length or padding) to the
`sentinel` string, so the function is total. -/
def decrypt (P : CryptoPrims) (k : List Byte) (text : String) : String :=
  match jsSplit ':' text.data with
  | [] => sentinel
  | ivPart :: rest =>
    let iv := hexDecode ivPart
    let ct := hexDecode (joinWith ':' rest)
    if iv.length = 16 then
      match nodeCbcDecrypt P k iv ct with
      | some pt => P.utf8DecLossy pt
      | none => sentinel
    else sentinel

/-- The IV bytes `decrypt` extracts from a token
(`Buffer.from(textParts.shift(), 'hex')`). -/
def ivOf (text : String) : List Byte :=
  hexDecode ((jsSplit ':' text.data).headI)

/-- The ciphertext bytes `decrypt` extracts from a token
(`Buffer.from(textParts.join(':'), 'hex')` after the shift). -/
def ctOf (text : String) : List Byte :=
  hexDecode (joinWith ':' (jsSplit ':' text.data).tail)

/-- Four-byte little-endian rendering of one character's code point,
used by the concrete `CryptoPrims` instance below. -/
def enc4 (c : Char) : List Byte :=
  [mkByte c.toNat, mkByte (c.toNat / 256),
   mkByte (c.toNat / 65536), mkByte (c.toNat / 16777216)]

/-- Inverse of `enc4`, reading four bytes per character. -/
def dec4 : List Byte → List Char
  | b0 :: b1 :: b2 :: b3 :: rest =>
    Char.ofNat (b0.val + 256 * b1.val + 65536 * b2.val + 16777216 * b3.val)
      :: dec4 rest
  | _ => []

/-- Concrete string-to-bytes codec for the witness instance. -/
def strEnc4 (s : String) : List Byte := s.data.flatMap enc4

/-- Concrete bytes-to-string codec for the witness instance (total, like
`buffer.toString()`; trailing bytes that do not fill a group are
dropped). -/
def strDec4 (bs : List Byte) : String := ⟨dec4 bs⟩

/-- A concrete instantiation of the abstract library primitives, used to
evaluate the embedded code on explicit inputs: the block permutation is
the identity (a valid keyed permutation) and the byte codec is the
four-bytes-per-character one. -/
def cpId : CryptoPrims :=
  { E := fun _ b => b
    D := fun _ b => b
    utf8Enc := strEnc4
    utf8DecLossy := strDec4 }

/-- A concrete 32-byte key. -/
def kW : List Byte := List.replicate 32 0

/-- A concrete 16-byte IV (models one draw of `randomBytes(16)`). -/
def ivW : List Byte := List.replicate 16 0

/-- A well-formed ciphertext body under `cpId`, `kW`, `ivW`. -/
def ctC3 : List Byte := cbcEncryptBytes cpId kW ivW (cpId.utf8Enc "hi")

/-- A malformed token: the IV part carries two non-hex characters `z`
after 32 valid hex digits.  `Buffer.from(part, 'hex')` truncates at the
first non-hex pair, so the code still recovers a 16-byte IV from it. -/
def tokC3 : String := ⟨bytesToHex ivW ++ 'z' :: 'z' :: ':' :: bytesToHex ctC3⟩

/-- One durable chat record, as stored in the `messages` array and in
`messages.json` (src/server.js lines 133–140).  `content` holds the
encrypted token; `id` and `createdAt` are kept as the numbers whose
decimal / ISO-8601 renderings the source stores (see the header). -/
structure Message where
  id : Nat
  roomId : String
  user : String
  «to» : String
  content : String
  createdAt : Nat
deriving DecidableEq, Repr

/-- Outcome of one `fs.writeFileSync` attempt. -/
inductive WriteOutcome where
  | ok
  | ioError
deriving DecidableEq, Repr

/-- src/server.js lines 32–38: write the full log to `messages.json`.
The try/catch swallows a write error (logging it to the console), so the
function always returns normally; on failure the file keeps its previous
contents. -/
def saveMessages (w : WriteOutcome) (disk data : List Message) : List Message :=
  match w with
  | .ok => data
  | .ioError => disk

/-- The mutable process state: the in-memory `messages` array and the
contents of the `messages.json` backing file. -/
structure ServerState where
  messages : List Message
  disk : List Message
deriving DecidableEq, Repr

/-- What one `postMessage` call produces: the new state, the `Message`
returned to the caller, and the `(channel, payload)` pairs handed to
`pubSub.publish`. -/
structure PostResult where
  state : ServerState
  returned : Message
  published : List (String × Message)
deriving DecidableEq, Repr

/-- src/server.js lines 129–154, the `postMessage` mutation resolver:
encrypt the content, append the encrypted record to the log, rewrite the
backing file (`saveMessages` never throws), then publish the plaintext
form to the room channel and the recipient channel and return it. -/
def postMessage (P : CryptoPrims) (k iv : List Byte) (now : Nat)
    (w : WriteOutcome) (s : ServerState)
    (roomId user «to» content : String) : PostResult :=
  let encryptedContent := encrypt P k iv content
  let storedMessage : Message :=
    { id := s.messages.length, roomId := roomId, user := user, «to» := «to»,
      content := encryptedContent, createdAt := now }
  let messages' := s.messages ++ [storedMessage]
  let disk' := saveMessages w s.disk messages'
  let publicMessage := { storedMessage with content := content }
  { state := { messages := messages', disk := disk' }
    returned := publicMessage
    published := [("MESSAGE_ADDED_" ++ roomId, publicMessage),
                  ("MESSAGE_TO_" ++ «to», publicMessage)] }

/-- src/server.js lines 118–126, the `messages` query resolver: filter
the log by exact `roomId` match, then map each record to a fresh object
(`{...m, content: decrypt(m.content)}`) carrying the decrypted
content.  The spread copies the record, so the store is not touched. -/
def messagesResolver (P : CryptoPrims) (k : List Byte)
    (msgs : List Message) (roomId : String) : List Message :=
  (msgs.filter (fun m => m.roomId == roomId)).map
    (fun m => { m with content := decrypt P k m.content })

/-- Forget the `content` field (used to state order preservation). -/
def eraseContent (m : Message) : Message := { m with content := "" }

/-- The arguments of one `postMessage` call, with its draws from the
environment (IV, clock, write outcome). -/
structure PostCall where
  iv : List Byte
  now : Nat
  w : WriteOutcome
  roomId : String
  user : String
  «to» : String
  content : String

/-- Run a sequence of `postMessage` calls one after another, collecting
the returned messages. -/
def runPosts (P : CryptoPrims) (k : List Byte) (s : ServerState) :
    List PostCall → ServerState × List Message
  | [] => (s, [])
  | c :: cs =>
    let r := postMessage P k c.iv c.now c.w s c.roomId c.user c.«to» c.content
    let rest := runPosts P k r.state cs
    (rest.1, r.returned :: rest.2)

/-- One `messages` query as a state transformer: it yields the resolver
result and leaves the state exactly as it was (the resolver only reads
`messages` and builds fresh objects). -/
def queryStep (P : CryptoPrims) (k : List Byte) (s : ServerState)
    (roomId : String) : List Message × ServerState :=
  (messagesResolver P k s.messages roomId, s)

/-- Run a sequence of `messages` queries, threading the state. -/
def runQueries (P : CryptoPrims) (k : List Byte) (s : ServerState) :
    List String → ServerState
  | [] => s
  | r :: rs => runQueries P k (queryStep P k s r).2 rs

/-- One row of the `user_chats_view` result (the `UserChat` GraphQL
type). -/
structure UserChat where
  room_id : String
  contact_name : String
  last_message : String
  created_at : Nat
deriving DecidableEq, Repr

/-- Lookup in the `rooms` object (`rooms[roomId]`), modelled as an
insertion-ordered association list. -/
def lookupRoom : List (String × Message) → String → Option Message
  | [], _ => none
  | (a, m) :: rest, r => if a = r then some m else lookupRoom rest r

/-- Assignment `rooms[roomId] = m` for a key that is already present:
the entry keeps its position. -/
def replaceRoom : List (String × Message) → String → Message →
    List (String × Message)
  | [], _, _ => []
  | (a, m) :: rest, r, m' =>
    if a = r then (a, m') :: rest else (a, m) :: replaceRoom rest r m'

/-- The `myMessages.forEach` loop of `user_chats_view` (part_001 lines
91–96): for each message, install it for its room unless the room
already holds a message with a timestamp that is not strictly older
(`new Date(m.createdAt) > new Date(rooms[m.roomId].createdAt)`). -/
def roomsFold : List (String × Message) → List Message →
    List (String × Message)
  | rooms, [] => rooms
  | rooms, m :: rest =>
    roomsFold
      (match lookupRoom rooms m.roomId with
        | none => rooms ++ [(m.roomId, m)]
        | some old =>
          if old.createdAt < m.createdAt then replaceRoom rooms m.roomId m
          else rooms)
      rest

/-- Keep the newer of an accumulated message and the next one, strictly:
on equal timestamps the accumulated (earlier) one is kept.  This is the
per-room projection of one `forEach` step. -/
def pickNewer (acc : Option Message) (m : Message) : Option Message :=
  match acc with
  | none => some m
  | some old => if old.createdAt < m.createdAt then some m else acc

/-- The message `user_chats_view` ends up selecting for one room: among
the room's messages, the one with maximal `createdAt` that appears
earliest in log order. -/
def firstMaxByCreated (l : List Message) : Option Message :=
  l.foldl pickNewer none

/-- The messages `user_chats_view` retains for `user`
(`m.user === user || m.to === user`). -/
def retainedMsgs (user : String) (msgs : List Message) : List Message :=
  msgs.filter (fun m => m.user == user || m.«to» == user)

/-- The summary row built from one selected message (part_001 lines
99–106). -/
def mkUserChat (P : CryptoPrims) (k : List Byte) (user : String)
    (m : Message) : UserChat :=
  { room_id := m.roomId
    contact_name := if m.user = user then m.«to» else m.user
    last_message := decrypt P k m.content
    created_at := m.createdAt }

/-- part_001 lines 85–107, the `user_chats_view` query resolver: filter
the log to the user's messages, fold them into one latest message per
room, map to summary rows, and sort newest-first.  `Array.prototype.sort`
with comparator `(a, b) => new Date(b.created_at) - new Date(a.created_at)`
is a stable descending sort by `created_at`; insertion sort with the
matching relation computes exactly that. -/
def user_chats_view (P : CryptoPrims) (k : List Byte) (user : String)
    (msgs : List Message) : List UserChat :=
  List.insertionSort (fun a b => b.created_at ≤ a.created_at)
    ((roomsFold [] (retainedMsgs user msgs)).map
      (fun rm => mkUserChat P k user rm.2))

/-- The value `JSON.parse` can leave in the module-level `messages`
binding: the expected array of records, or some other JSON value (the
code never checks). -/
inductive JsVal where
  | msgArray (msgs : List Message)
  | nonArray
deriving DecidableEq, Repr

/-- What the process finds at `messages.json` on startup: no file
(`existsSync` false), an unreadable file (`readFileSync` throws), or
readable contents on which `JSON.parse` either throws (`none`) or
returns a value. -/
inductive FileRead where
  | absent
  | readError
  | content (parse : Option JsVal)
deriving DecidableEq, Repr

/-- src/server.js lines 19–29, `loadMessages`: return the parsed file
contents; the try/catch turns a read or parse exception into a logged
warning and the empty array, and a missing file also yields the empty
array.  A successfully parsed value is returned as-is, whatever its
shape. -/
def loadMessages : FileRead → JsVal
  | .absent => .msgArray []
  | .readError => .msgArray []
  | .content none => .msgArray []
  | .content (some v) => v

/-- The `messages` resolver run against the startup value: on an actual
array it is `messagesResolver`; on any other value `messages.filter`
throws a `TypeError` (modelled as `none`). -/
def messagesResolverJs (P : CryptoPrims) (k : List Byte) (store : JsVal)
    (roomId : String) : Option (List Message) :=
  match store with
  | .msgArray l => some (messagesResolver P k l roomId)
  | .nonArray => none

/-- The `postMessage` resolver run against the startup value: on an
actual array it is `postMessage`; on any other value `messages.push`
throws a `TypeError` (modelled as `none`). -/
def postMessageJs (P : CryptoPrims) (k iv : List Byte) (now : Nat)
    (w : WriteOutcome) (store : JsVal) (disk : List Message)
    (roomId user «to» content : String) : Option PostResult :=
  match store with
  | .msgArray l => some (postMessage P k iv now w ⟨l, disk⟩ roomId user «to» content)
  | .nonArray => none

/-- Two stored messages in the same room with identical `createdAt`
timestamps, differing in their recipient.  Their `content` fields hold
junk rather than valid tokens, which `decrypt` maps to the sentinel. -/
def msgsC2 : List Message :=
  [{ id := 0, roomId := "room1", user := "alice", «to» := "bob",
     content := "x", createdAt := 5 },
   { id := 1, roomId := "room1", user := "alice", «to» := "carol",
     content := "y", createdAt := 5 }]

/-- Two consecutive `postMessage` calls with non-decreasing clock
readings. -/
def callsW : List PostCall :=
  [⟨ivW, 3, .ok, "room1", "alice", "bob", "hi"⟩,
   ⟨ivW, 5, .ok, "room1", "bob", "alice", "yo"⟩]

/-- The message the first call of `callsW` returns. -/
def m0W : Message :=
  { id := 0, roomId := "room1", user := "alice", «to» := "bob",
    content := "hi", createdAt := 3 }

/-- The message the second call of `callsW` returns. -/
def m1W : Message :=
  { id := 1, roomId := "room1", user := "bob", «to» := "alice",
    content := "yo", createdAt := 5 }

theorem hexDigitVal_hexDigitChar (n : Nat) (h : n < 16) :
    hexDigitVal (hexDigitChar n) = some n := by
  interval_cases n <;> decide

theorem hexDigitChar_ne_colon (n : Nat) (h : n < 16) : hexDigitChar n ≠ ':' := by
  interval_cases n <;> decide

theorem bytesToHex_cons (b : Byte) (bs : List Byte) :
    bytesToHex (b :: bs) = byteToHex b ++ bytesToHex bs := rfl

theorem mem_bytesToHex_ne_colon (bs : List Byte) (c : Char)
    (hc : c ∈ bytesToHex bs) : c ≠ ':' := by
  induction bs with
  | nil => simp [bytesToHex] at hc
  | cons b bs ih =>
    rw [bytesToHex_cons] at hc
    rcases List.mem_append.1 hc with h | h
    · have hb := b.isLt
      simp only [byteToHex, List.mem_cons, List.not_mem_nil, or_false] at h
      rcases h with h | h
      · subst h; exact hexDigitChar_ne_colon _ (by omega)
      · subst h; exact hexDigitChar_ne_colon _ (by omega)
    · exact ih h

theorem hexDecode_bytesToHex (bs : List Byte) : hexDecode (bytesToHex bs) = bs := by
  induction bs with
  | nil => rfl
  | cons b bs ih =>
    have hb := b.isLt
    have h1 : hexDigitVal (hexDigitChar (b.val / 16)) = some (b.val / 16) :=
      hexDigitVal_hexDigitChar _ (by omega)
    have h2 : hexDigitVal (hexDigitChar (b.val % 16)) = some (b.val % 16) :=
      hexDigitVal_hexDigitChar _ (by omega)
    show hexDecode (hexDigitChar (b.val / 16) :: hexDigitChar (b.val % 16)
      :: bytesToHex bs) = b :: bs
    simp only [hexDecode, h1, h2, ih]
    refine List.cons_eq_cons.2 ⟨?_, rfl⟩
    apply Fin.ext
    simp only [mkByte]
    omega

theorem length_bytesToHex (bs : List Byte) :
    (bytesToHex bs).length = 2 * bs.length := by
  induction bs with
  | nil => rfl
  | cons b bs ih =>
    rw [bytesToHex_cons, List.length_append, ih]
    simp [byteToHex]
    omega

theorem byte_xor_lt (x y : Byte) : x.val ^^^ y.val < 256 := by
  have h2 : (2 : Nat) ^ 8 = 256 := by norm_num
  have hx : x.val < 2 ^ 8 := by rw [h2]; exact x.isLt
  have hy : y.val < 2 ^ 8 := by rw [h2]; exact y.isLt
  have h := Nat.xor_lt_two_pow hx hy
  rw [h2] at h
  exact h

theorem bxor_bxor (x y : Byte) :
    mkByte ((mkByte (x.val ^^^ y.val)).val ^^^ y.val) = x := by
  have hx := x.isLt
  have h1 := byte_xor_lt x y
  apply Fin.ext
  simp only [mkByte]
  rw [Nat.mod_eq_of_lt h1, Nat.xor_assoc, Nat.xor_self, Nat.xor_zero,
    Nat.mod_eq_of_lt hx]

theorem zipXor_length (a b : List Byte) :
    (zipXor a b).length = min a.length b.length := by
  simp [zipXor]

theorem zipXor_zipXor (a b : List Byte) (h : a.length = b.length) :
    zipXor (zipXor a b) b = a := by
  induction a generalizing b with
  | nil => cases b <;> simp [zipXor]
  | cons x xs ih =>
    cases b with
    | nil => simp at h
    | cons y ys =>
      simp only [zipXor, List.zipWith_cons_cons] at ih ⊢
      refine List.cons_eq_cons.2 ⟨bxor_bxor x y, ?_⟩
      exact ih ys (by simpa using h)

theorem flatten_toBlocksF (n : Nat) (l : List Byte) (h : l.length ≤ n) :
    (toBlocksF n l).flatten = l := by
  induction n generalizing l with
  | zero =>
    cases l with
    | nil => rfl
    | cons x xs => simp at h
  | succ n ih =>
    cases l with
    | nil => rfl
    | cons x xs =>
      show ((x :: xs).take 16 :: toBlocksF n ((x :: xs).drop 16)).flatten = x :: xs
      have hlen : ((x :: xs).drop 16).length ≤ n := by
        rw [List.length_drop]
        simp only [List.length_cons] at h ⊢
        omega
      rw [List.flatten_cons, ih _ hlen, List.take_append_drop]

theorem toBlocksF_flatten (n : Nat) (bs : List (List Byte))
    (hb : ∀ b ∈ bs, b.length = 16) (h : bs.flatten.length ≤ n) :
    toBlocksF n bs.flatten = bs := by
  induction bs generalizing n with
  | nil => cases n <;> rfl
  | cons b bs ih =>
    have hblen : b.length = 16 := hb b (by simp)
    rw [List.flatten_cons] at h ⊢
    obtain ⟨c, b', rfl⟩ : ∃ c b', b = c :: b' := by
      cases b with
      | nil => simp at hblen
      | cons c b' => exact ⟨c, b', rfl⟩
    rw [List.length_append] at h
    rw [hblen] at h
    cases n with
    | zero => omega
    | succ n =>
      show ((c :: b' ++ bs.flatten).take 16 :: toBlocksF n ((c :: b' ++ bs.flatten).drop 16))
        = (c :: b') :: bs
      rw [List.take_left' hblen, List.drop_left' hblen,
        ih n (fun x hx => hb x (List.mem_cons_of_mem _ hx)) (by omega)]

theorem toBlocksF_mem_length (n : Nat) (l : List Byte) (h1 : l.length ≤ n)
    (h2 : l.length % 16 = 0) : ∀ b ∈ toBlocksF n l, b.length = 16 := by
  induction n generalizing l with
  | zero =>
    cases l with
    | nil => intro b hb; cases hb
    | cons x xs => simp at h1
  | succ n ih =>
    cases l with
    | nil => intro b hb; cases hb
    | cons x xs =>
      intro b hb
      have hpos : 0 < (x :: xs).length := by simp
      have hlen : 16 ≤ (x :: xs).length := by omega
      rcases List.mem_cons.1 hb with hb | hb
      · subst hb
        rw [List.length_take]
        omega
      · refine ih _ ?_ ?_ b hb
        · rw [List.length_drop]
          omega
        · rw [List.length_drop]
          omega

theorem toBlocksF_ne_nil (n : Nat) (l : List Byte) (h : l ≠ []) :
    toBlocksF n l ≠ [] := by
  cases l with
  | nil => exact absurd rfl h
  | cons x xs => cases n <;> simp [toBlocksF]

theorem flatten_length_all16 (bs : List (List Byte))
    (hb : ∀ b ∈ bs, b.length = 16) : bs.flatten.length = 16 * bs.length := by
  induction bs with
  | nil => rfl
  | cons b bs ih =>
    rw [List.flatten_cons, List.length_append, hb b (by simp),
      ih (fun x hx => hb x (by simp [hx]))]
    simp
    omega

theorem cbcEncBlocks_length_eq (P : CryptoPrims) (k : List Byte) :
    ∀ (bs : List (List Byte)) (prev : List Byte),
      (cbcEncBlocks P k prev bs).length = bs.length := by
  intro bs
  induction bs with
  | nil => intro prev; rfl
  | cons b bs ih => intro prev; simp [cbcEncBlocks, ih]

theorem cbcEncBlocks_mem_length (P : CryptoPrims) (hP : GoodCrypto P)
    (k : List Byte) :
    ∀ (bs : List (List Byte)) (prev : List Byte), prev.length = 16 →
      (∀ b ∈ bs, b.length = 16) →
      ∀ c ∈ cbcEncBlocks P k prev bs, c.length = 16 := by
  intro bs
  induction bs with
  | nil => intro prev _ _ c hc; cases hc
  | cons b bs ih =>
    intro prev hprev hb c hc
    have hblen : b.length = 16 := hb b (by simp)
    have hzip : (zipXor b prev).length = 16 := by
      rw [zipXor_length, hblen, hprev]
      exact Nat.min_self 16
    have hhead : (P.E k (zipXor b prev)).length = 16 := hP.enc_len k _ hzip
    rcases List.mem_cons.1 hc with hc | hc
    · subst hc; exact hhead
    · exact ih _ hhead (fun x hx => hb x (by simp [hx])) c hc

theorem cbcDecBlocks_cbcEncBlocks (P : CryptoPrims) (hP : GoodCrypto P)
    (k : List Byte) :
    ∀ (bs : List (List Byte)) (prev : List Byte), prev.length = 16 →
      (∀ b ∈ bs, b.length = 16) →
      cbcDecBlocks P k prev (cbcEncBlocks P k prev bs) = bs := by
  intro bs
  induction bs with
  | nil => intro prev _ _; rfl
  | cons b bs ih =>
    intro prev hprev hb
    have hblen : b.length = 16 := hb b (by simp)
    have hzip : (zipXor b prev).length = 16 := by
      rw [zipXor_length, hblen, hprev]
      exact Nat.min_self 16
    have hhead : (P.E k (zipXor b prev)).length = 16 := hP.enc_len k _ hzip
    show zipXor (P.D k (P.E k (zipXor b prev))) prev
        :: cbcDecBlocks P k (P.E k (zipXor b prev))
          (cbcEncBlocks P k (P.E k (zipXor b prev)) bs) = b :: bs
    rw [hP.dec_enc k _ hzip, zipXor_zipXor b prev (by omega),
      ih _ hhead (fun x hx => hb x (by simp [hx]))]

theorem toBlocks_flatten (bs : List (List Byte))
    (hb : ∀ b ∈ bs, b.length = 16) : toBlocks bs.flatten = bs :=
  toBlocksF_flatten _ _ hb (le_refl _)

theorem flatten_toBlocks (l : List Byte) : (toBlocks l).flatten = l :=
  flatten_toBlocksF _ _ (le_refl _)

theorem pkcs7unpad_eq_of_getLast (s' : List Byte) (n : Byte)
    (h : s'.getLast? = some n) :
    pkcs7unpad s' =
      if 1 ≤ n.val ∧ n.val ≤ 16 ∧ n.val ≤ s'.length ∧
          (s'.drop (s'.length - n.val)).all (fun b => b = n) then
        some (s'.take (s'.length - n.val))
      else none := by
  unfold pkcs7unpad
  rw [h]

theorem pkcs7pad_length (s : List Byte) :
    (pkcs7pad s).length = s.length + (16 - s.length % 16) := by
  simp [pkcs7pad]

theorem pkcs7unpad_pkcs7pad (s : List Byte) :
    pkcs7unpad (pkcs7pad s) = some s := by
  have hmod : s.length % 16 < 16 := Nat.mod_lt _ (by norm_num)
  have hn1 : 1 ≤ 16 - s.length % 16 := by omega
  have hn16 : 16 - s.length % 16 ≤ 16 := by omega
  have hval : (mkByte (16 - s.length % 16)).val = 16 - s.length % 16 := by
    simp only [mkByte]
    omega
  have hlast : (pkcs7pad s).getLast? = some (mkByte (16 - s.length % 16)) := by
    rw [pkcs7pad, List.getLast?_append]
    have : (List.replicate (16 - s.length % 16)
        (mkByte (16 - s.length % 16))).getLast? = some (mkByte (16 - s.length % 16)) := by
      cases h : 16 - s.length % 16 with
      | zero => omega
      | succ m => simp [List.getLast?_replicate]
    rw [this]
    rfl
  rw [pkcs7unpad_eq_of_getLast _ _ hlast]
  have hdroplen : (pkcs7pad s).length - (mkByte (16 - s.length % 16)).val = s.length := by
    rw [hval, pkcs7pad_length]
    omega
  rw [if_pos]
  · rw [hdroplen, pkcs7pad, List.take_left]
  · refine ⟨by omega, by omega, ?_, ?_⟩
    · rw [hval, pkcs7pad_length]; omega
    · rw [hdroplen, pkcs7pad, List.drop_left]
      simp [List.all_eq_true, List.mem_replicate]

theorem nodeCbcDecrypt_cbcEncryptBytes (P : CryptoPrims) (hP : GoodCrypto P)
    (k iv pt : List Byte) (hiv : iv.length = 16) :
    nodeCbcDecrypt P k iv (cbcEncryptBytes P k iv pt) = some pt := by
  have hpadmod : (pkcs7pad pt).length % 16 = 0 := by
    rw [pkcs7pad_length]
    have : pt.length % 16 < 16 := Nat.mod_lt _ (by norm_num)
    omega
  have hblocks : ∀ b ∈ toBlocks (pkcs7pad pt), b.length = 16 :=
    toBlocksF_mem_length _ _ (le_refl _) hpadmod
  have hpadne : pkcs7pad pt ≠ [] := by
    intro h
    have := congrArg List.length h
    rw [pkcs7pad_length] at this
    have : pt.length % 16 < 16 := Nat.mod_lt _ (by norm_num)
    simp at *
    omega
  have hbne : toBlocks (pkcs7pad pt) ≠ [] := toBlocksF_ne_nil _ _ hpadne
  have henc : ∀ c ∈ cbcEncBlocks P k iv (toBlocks (pkcs7pad pt)), c.length = 16 :=
    cbcEncBlocks_mem_length P hP k _ iv hiv hblocks
  have hctlen : (cbcEncryptBytes P k iv pt).length
      = 16 * (toBlocks (pkcs7pad pt)).length := by
    rw [cbcEncryptBytes, flatten_length_all16 _ henc, cbcEncBlocks_length_eq]
  have hblockspos : 0 < (toBlocks (pkcs7pad pt)).length :=
    List.length_pos.mpr hbne
  rw [nodeCbcDecrypt, if_pos ⟨by omega, by omega⟩]
  rw [cbcEncryptBytes, toBlocks_flatten _ henc,
    cbcDecBlocks_cbcEncBlocks P hP k _ iv hiv hblocks,
    flatten_toBlocks, pkcs7unpad_pkcs7pad]

theorem char_toNat_lt (c : Char) : c.toNat < 1114112 := by
  have h := c.valid
  simp only [Char.toNat]
  rcases h with h | ⟨h1, h2⟩
  · omega
  · omega

theorem dec4_enc4 (c : Char) (bs : List Byte) :
    dec4 (enc4 c ++ bs) = c :: dec4 bs := by
  have hc := char_toNat_lt c
  show dec4 (mkByte c.toNat :: mkByte (c.toNat / 256) :: mkByte (c.toNat / 65536)
    :: mkByte (c.toNat / 16777216) :: bs) = c :: dec4 bs
  simp only [dec4]
  refine List.cons_eq_cons.2 ⟨?_, rfl⟩
  have hval : (mkByte c.toNat).val + 256 * (mkByte (c.toNat / 256)).val
      + 65536 * (mkByte (c.toNat / 65536)).val
      + 16777216 * (mkByte (c.toNat / 16777216)).val = c.toNat := by
    simp only [mkByte]
    omega
  rw [hval]
  exact Char.ofNat_toNat c

theorem dec4_flatMap_enc4 (l : List Char) : dec4 (l.flatMap enc4) = l := by
  induction l with
  | nil => rfl
  | cons c cs ih =>
    show dec4 (enc4 c ++ cs.flatMap enc4) = c :: cs
    rw [dec4_enc4, ih]

theorem strDec4_strEnc4 (s : String) : strDec4 (strEnc4 s) = s := by
  cases s with
  | mk data =>
    show (⟨dec4 (data.flatMap enc4)⟩ : String) = ⟨data⟩
    rw [dec4_flatMap_enc4]

theorem cpId_good : GoodCrypto cpId := by
  refine ⟨?_, ?_, ?_⟩
  · intro k b h
    exact h
  · intro k b _
    rfl
  · intro s
    exact strDec4_strEnc4 s

theorem jsSplit_ne_nil (sep : Char) (l : List Char) : jsSplit sep l ≠ [] := by
  cases l with
  | nil => simp [jsSplit]
  | cons c rest =>
    by_cases hc : c = sep
    · simp [jsSplit, hc]
    · simp only [jsSplit, if_neg hc]
      cases jsSplit sep rest <;> simp

theorem jsSplit_append (sep : Char) (a b : List Char)
    (ha : ∀ c ∈ a, c ≠ sep) :
    jsSplit sep (a ++ sep :: b) = a :: jsSplit sep b := by
  induction a with
  | nil => simp [jsSplit]
  | cons c a ih =>
    have hc : c ≠ sep := ha c (by simp)
    have ih' := ih (fun x hx => ha x (by simp [hx]))
    simp only [List.cons_append, jsSplit, if_neg hc]
    rw [show a.append (sep :: b) = a ++ sep :: b from rfl, ih']

theorem joinWith_cons_cons (sep c : Char) (g : List Char) (gs : List (List Char)) :
    joinWith sep ((c :: g) :: gs) = c :: joinWith sep (g :: gs) := by
  cases gs <;> simp [joinWith]

theorem joinWith_nil_cons (sep : Char) (g : List Char) (gs : List (List Char)) :
    joinWith sep ([] :: g :: gs) = sep :: joinWith sep (g :: gs) := by
  simp [joinWith]

theorem joinWith_jsSplit (sep : Char) (l : List Char) :
    joinWith sep (jsSplit sep l) = l := by
  induction l with
  | nil => rfl
  | cons c rest ih =>
    by_cases hc : c = sep
    · simp only [jsSplit, if_pos hc]
      cases h : jsSplit sep rest with
      | nil => exact absurd h (jsSplit_ne_nil _ _)
      | cons g gs =>
        rw [joinWith_nil_cons, ← h, ih, hc]
    · simp only [jsSplit, if_neg hc]
      cases h : jsSplit sep rest with
      | nil => exact absurd h (jsSplit_ne_nil _ _)
      | cons g gs =>
        rw [joinWith_cons_cons, ← h, ih]

theorem decrypt_encrypt (P : CryptoPrims) (hP : GoodCrypto P)
    (k iv : List Byte) (hiv : iv.length = 16) (text : String) :
    decrypt P k (encrypt P k iv text) = text := by
  have hsplit : jsSplit ':' (encrypt P k iv text).data
      = bytesToHex iv
        :: jsSplit ':' (bytesToHex (cbcEncryptBytes P k iv (P.utf8Enc text))) :=
    jsSplit_append ':' _ _ (fun c hc => mem_bytesToHex_ne_colon _ _ hc)
  unfold decrypt
  rw [hsplit]
  simp only [joinWith_jsSplit, hexDecode_bytesToHex]
  rw [if_pos hiv, nodeCbcDecrypt_cbcEncryptBytes P hP k iv _ hiv]
  exact hP.utf8_roundtrip text

theorem runPosts_length (P : CryptoPrims) (k : List Byte) :
    ∀ (calls : List PostCall) (s : ServerState),
      (runPosts P k s calls).2.length = calls.length := by
  intro calls
  induction calls with
  | nil => intro s; rfl
  | cons c cs ih => intro s; simp [runPosts, ih]

theorem postMessage_state_messages (P : CryptoPrims) (k iv : List Byte)
    (now : Nat) (w : WriteOutcome) (s : ServerState)
    (roomId user «to» content : String) :
    (postMessage P k iv now w s roomId user «to» content).state.messages
      = s.messages ++
        [{ id := s.messages.length, roomId := roomId, user := user,
           «to» := «to», content := encrypt P k iv content,
           createdAt := now }] := rfl

theorem runPosts_getElem_id (P : CryptoPrims) (k : List Byte) :
    ∀ (calls : List PostCall) (s : ServerState) (i : Nat) (m : Message),
      (runPosts P k s calls).2[i]? = some m →
        m.id = s.messages.length + i := by
  intro calls
  induction calls with
  | nil =>
    intro s i m h
    simp [runPosts] at h
  | cons c cs ih =>
    intro s i m h
    cases i with
    | zero =>
      have hm : m = (postMessage P k c.iv c.now c.w s c.roomId c.user c.«to»
          c.content).returned := by
        simpa [runPosts] using h.symm
      subst hm
      rfl
    | succ i =>
      have h' := ih _ i m (by simpa [runPosts] using h)
      rw [postMessage_state_messages] at h'
      simp at h'
      omega

theorem runPosts_createdAt (P : CryptoPrims) (k : List Byte) :
    ∀ (calls : List PostCall) (s : ServerState),
      (runPosts P k s calls).2.map Message.createdAt
        = calls.map PostCall.now := by
  intro calls
  induction calls with
  | nil => intro s; rfl
  | cons c cs ih =>
    intro s
    show (postMessage P k c.iv c.now c.w s c.roomId c.user c.«to»
        c.content).returned.createdAt :: _ = c.now :: _
    rw [ih]
    rfl

theorem lookupRoom_append_some (R S : List (String × Message)) (r : String)
    (m : Message) (h : lookupRoom R r = some m) :
    lookupRoom (R ++ S) r = some m := by
  induction R with
  | nil => simp [lookupRoom] at h
  | cons p R ih =>
    obtain ⟨a, x⟩ := p
    by_cases ha : a = r
    · simp only [lookupRoom, if_pos ha] at h
      simp only [List.cons_append, lookupRoom, if_pos ha]
      exact h
    · simp only [lookupRoom, if_neg ha] at h
      simp only [List.cons_append, lookupRoom, if_neg ha]
      exact ih h

theorem lookupRoom_append_none (R S : List (String × Message)) (r : String)
    (h : lookupRoom R r = none) :
    lookupRoom (R ++ S) r = lookupRoom S r := by
  induction R with
  | nil => rfl
  | cons p R ih =>
    obtain ⟨a, x⟩ := p
    by_cases ha : a = r
    · simp only [lookupRoom, if_pos ha] at h
      simp at h
    · simp only [lookupRoom, if_neg ha] at h
      simp only [List.cons_append, lookupRoom, if_neg ha]
      exact ih h

theorem lookupRoom_replaceRoom_self (R : List (String × Message)) (r : String)
    (m old : Message) (h : lookupRoom R r = some old) :
    lookupRoom (replaceRoom R r m) r = some m := by
  induction R with
  | nil => simp [lookupRoom] at h
  | cons p R ih =>
    obtain ⟨a, x⟩ := p
    by_cases ha : a = r
    · simp only [replaceRoom, if_pos ha, lookupRoom, if_pos ha]
    · simp only [lookupRoom, if_neg ha] at h
      simp only [replaceRoom, if_neg ha, lookupRoom, if_neg ha]
      exact ih h

theorem lookupRoom_replaceRoom_ne (R : List (String × Message)) (q r : String)
    (m : Message) (h : q ≠ r) :
    lookupRoom (replaceRoom R q m) r = lookupRoom R r := by
  induction R with
  | nil => rfl
  | cons p R ih =>
    obtain ⟨a, x⟩ := p
    by_cases ha : a = q
    · simp only [replaceRoom, if_pos ha, lookupRoom]
      rw [if_neg (by rw [ha]; exact h), if_neg (by rw [ha]; exact h)]
    · simp only [replaceRoom, if_neg ha, lookupRoom]
      by_cases ha' : a = r
      · rw [if_pos ha', if_pos ha']
      · rw [if_neg ha', if_neg ha']
        exact ih

theorem replaceRoom_keys (R : List (String × Message)) (q : String)
    (m : Message) :
    (replaceRoom R q m).map Prod.fst = R.map Prod.fst := by
  induction R with
  | nil => rfl
  | cons p R ih =>
    obtain ⟨a, x⟩ := p
    by_cases ha : a = q
    · simp [replaceRoom, if_pos ha]
    · simp [replaceRoom, if_neg ha, ih]

theorem lookupRoom_eq_none_iff (R : List (String × Message)) (r : String) :
    lookupRoom R r = none ↔ r ∉ R.map Prod.fst := by
  induction R with
  | nil => simp [lookupRoom]
  | cons p R ih =>
    obtain ⟨a, x⟩ := p
    by_cases ha : a = r
    · simp [lookupRoom, if_pos ha, ha]
    · simp [lookupRoom, if_neg ha, ih, Ne.symm ha]

theorem mem_replaceRoom (R : List (String × Message)) (q : String)
    (m : Message) (p : String × Message) (h : p ∈ replaceRoom R q m) :
    p ∈ R ∨ p = (q, m) := by
  induction R with
  | nil => simp [replaceRoom] at h
  | cons hd R ih =>
    obtain ⟨a, x⟩ := hd
    by_cases ha : a = q
    · rw [replaceRoom, if_pos ha] at h
      rcases List.mem_cons.1 h with h | h
      · subst ha
        exact Or.inr h
      · exact Or.inl (List.mem_cons_of_mem _ h)
    · rw [replaceRoom, if_neg ha] at h
      rcases List.mem_cons.1 h with h | h
      · exact Or.inl (by simp [h])
      · rcases ih h with h | h
        · exact Or.inl (List.mem_cons_of_mem _ h)
        · exact Or.inr h

theorem lookupRoom_of_mem (R : List (String × Message)) (r : String)
    (m : Message) (hnd : (R.map Prod.fst).Nodup) (h : (r, m) ∈ R) :
    lookupRoom R r = some m := by
  induction R with
  | nil => simp at h
  | cons p R ih =>
    obtain ⟨a, x⟩ := p
    simp only [List.map_cons, List.nodup_cons] at hnd
    rcases List.mem_cons.1 h with h | h
    · obtain ⟨h1, h2⟩ := Prod.ext_iff.1 h
      dsimp at h1 h2
      subst h1
      subst h2
      simp [lookupRoom]
    · by_cases ha : a = r
      · exfalso
        apply hnd.1
        subst ha
        exact List.mem_map.2 ⟨(a, m), h, rfl⟩
      · simp only [lookupRoom, if_neg ha]
        exact ih hnd.2 h

theorem roomsFold_key_eq : ∀ (ms : List Message) (R : List (String × Message)),
    (∀ p ∈ R, p.1 = p.2.roomId) →
    ∀ p ∈ roomsFold R ms, p.1 = p.2.roomId := by
  intro ms
  induction ms with
  | nil => intro R hR p hp; exact hR p hp
  | cons m rest ih =>
    intro R hR p hp
    rw [roomsFold] at hp
    refine ih _ ?_ p hp
    cases hl : lookupRoom R m.roomId with
    | none =>
      simp only [hl]
      intro q hq
      rcases List.mem_append.1 hq with hq | hq
      · exact hR q hq
      · simp at hq
        subst hq
        rfl
    | some old =>
      simp only [hl]
      by_cases hlt : old.createdAt < m.createdAt
      · rw [if_pos hlt]
        intro q hq
        rcases mem_replaceRoom _ _ _ _ hq with hq | hq
        · exact hR q hq
        · subst hq
          rfl
      · rw [if_neg hlt]
        exact hR

theorem roomsFold_keys_nodup : ∀ (ms : List Message)
    (R : List (String × Message)), (R.map Prod.fst).Nodup →
    ((roomsFold R ms).map Prod.fst).Nodup := by
  intro ms
  induction ms with
  | nil => intro R h; exact h
  | cons m rest ih =>
    intro R hR
    rw [roomsFold]
    refine ih _ ?_
    cases hl : lookupRoom R m.roomId with
    | none =>
      simp only [hl]
      have hnot : m.roomId ∉ R.map Prod.fst := (lookupRoom_eq_none_iff R _).1 hl
      simp [List.nodup_append, hR, hnot]
    | some old =>
      simp only [hl]
      by_cases hlt : old.createdAt < m.createdAt
      · rw [if_pos hlt, replaceRoom_keys]
        exact hR
      · rw [if_neg hlt]
        exact hR

theorem roomsFold_mem : ∀ (ms : List Message) (R : List (String × Message))
    (p : String × Message), p ∈ roomsFold R ms → p ∈ R ∨ p.2 ∈ ms := by
  intro ms
  induction ms with
  | nil => intro R p hp; exact Or.inl hp
  | cons m rest ih =>
    intro R p hp
    rw [roomsFold] at hp
    have step := ih _ p hp
    cases hl : lookupRoom R m.roomId with
    | none =>
      simp only [hl] at step
      rcases step with h | h
      · rcases List.mem_append.1 h with h | h
        · exact Or.inl h
        · simp at h
          subst h
          exact Or.inr (by simp)
      · exact Or.inr (List.mem_cons_of_mem _ h)
    | some old =>
      simp only [hl] at step
      by_cases hlt : old.createdAt < m.createdAt
      · rw [if_pos hlt] at step
        rcases step with h | h
        · rcases mem_replaceRoom _ _ _ _ h with h | h
          · exact Or.inl h
          · subst h
            exact Or.inr (by simp)
        · exact Or.inr (List.mem_cons_of_mem _ h)
      · rw [if_neg hlt] at step
        rcases step with h | h
        · exact Or.inl h
        · exact Or.inr (List.mem_cons_of_mem _ h)

theorem lookupRoom_roomsFold : ∀ (ms : List Message)
    (R : List (String × Message)) (r : String),
    lookupRoom (roomsFold R ms) r
      = (ms.filter (fun m => m.roomId == r)).foldl pickNewer (lookupRoom R r) := by
  intro ms
  induction ms with
  | nil => intro R r; rfl
  | cons m rest ih =>
    intro R r
    rw [roomsFold]
    by_cases hr : m.roomId = r
    · subst hr
      rw [List.filter_cons_of_pos (by simp), List.foldl_cons, ih]
      congr 1
      cases hl : lookupRoom R m.roomId with
      | none =>
        simp only [hl]
        rw [lookupRoom_append_none _ _ _ hl]
        simp [lookupRoom, pickNewer]
      | some old =>
        simp only [hl]
        by_cases hlt : old.createdAt < m.createdAt
        · rw [if_pos hlt, lookupRoom_replaceRoom_self _ _ _ _ hl]
          simp [pickNewer, if_pos hlt]
        · rw [if_neg hlt, hl]
          simp [pickNewer, if_neg hlt]
    · rw [List.filter_cons_of_neg (by simp [hr]), ih]
      congr 1
      cases hl : lookupRoom R m.roomId with
      | none =>
        simp only [hl]
        cases hlr : lookupRoom R r with
        | none =>
          rw [lookupRoom_append_none _ _ _ hlr]
          simp [lookupRoom, hr]
        | some v => rw [lookupRoom_append_some _ _ _ _ hlr]
      | some old =>
        simp only [hl]
        by_cases hlt : old.createdAt < m.createdAt
        · rw [if_pos hlt]
          exact lookupRoom_replaceRoom_ne _ _ _ _ hr
        · rw [if_neg hlt]

theorem foldl_pickNewer_spec : ∀ (l : List Message) (acc : Option Message)
    (m : Message), l.foldl pickNewer acc = some m →
      (acc = some m ∧ ∀ x ∈ l, x.createdAt ≤ m.createdAt)
      ∨ (∃ l1 l2, l = l1 ++ m :: l2
          ∧ (∀ x ∈ l1, x.createdAt < m.createdAt)
          ∧ (∀ a, acc = some a → a.createdAt < m.createdAt)
          ∧ (∀ x ∈ l2, x.createdAt ≤ m.createdAt)) := by
  intro l
  induction l with
  | nil =>
    intro acc m h
    exact Or.inl ⟨h, by simp⟩
  | cons x rest ih =>
    intro acc m h
    rcases ih (pickNewer acc x) m (by simpa using h) with
      ⟨hacc, hle⟩ | ⟨l1, l2, heq, hl1, hacc, hl2⟩
    · cases acc with
      | none =>
        have hx : x = m := by simpa [pickNewer] using hacc
        subst hx
        exact Or.inr ⟨[], rest, by simp, by simp, by simp, hle⟩
      | some a =>
        by_cases hax : a.createdAt < x.createdAt
        · have hx : x = m := by simpa [pickNewer, if_pos hax] using hacc
          subst hx
          refine Or.inr ⟨[], rest, by simp, by simp, ?_, hle⟩
          intro b hb
          injection hb with hb
          subst hb
          exact hax
        · have ha : a = m := by simpa [pickNewer, if_neg hax] using hacc
          subst ha
          refine Or.inl ⟨rfl, ?_⟩
          intro y hy
          rcases List.mem_cons.1 hy with hy | hy
          · subst hy
            omega
          · exact hle y hy
    · refine Or.inr ⟨x :: l1, l2, by simp [heq], ?_, ?_, hl2⟩
      · intro y hy
        rcases List.mem_cons.1 hy with hy | hy
        · subst hy
          cases acc with
          | none => exact hacc y (by simp [pickNewer])
          | some a =>
            by_cases hax : a.createdAt < y.createdAt
            · exact hacc y (by simp [pickNewer, if_pos hax])
            · have := hacc a (by simp [pickNewer, if_neg hax])
              omega
        · exact hl1 y hy
      · intro b hb
        subst hb
        cases hp : pickNewer (some b) x with
        | none =>
          simp only [pickNewer] at hp
          split at hp <;> simp at hp
        | some a =>
          have ha := hacc a hp
          simp only [pickNewer] at hp
          by_cases hax : b.createdAt < x.createdAt
          · rw [if_pos hax] at hp
            injection hp with hp
            subst hp
            omega
          · rw [if_neg hax] at hp
            injection hp with hp
            subst hp
            exact ha

theorem firstMaxByCreated_spec (l : List Message) (m : Message)
    (h : firstMaxByCreated l = some m) :
    ∃ l1 l2, l = l1 ++ m :: l2
      ∧ (∀ x ∈ l1, x.createdAt < m.createdAt)
      ∧ (∀ x ∈ l2, x.createdAt ≤ m.createdAt) := by
  rcases foldl_pickNewer_spec l none m h with ⟨hacc, _⟩ | ⟨l1, l2, heq, h1, _, h2⟩
  · cases hacc
  · exact ⟨l1, l2, heq, h1, h2⟩

/-- C1 (counterexample): when the durable write fails (`WriteOutcome.ioError`),
`postMessage` still returns the plaintext Message to its caller — a success
result — while `messages.json` keeps its stale contents (here the empty log).
This contradicts the claim that a persistence failure during `post` is
reported to the caller as a failure of the whole operation: `saveMessages`
catches the write error and only logs it (src/server.js lines 32–38). -/
theorem C1_counterexample :
    (postMessage cpId kW ivW 5 .ioError ⟨[], []⟩ "room1" "alice" "bob" "hi").returned
        = { id := 0, roomId := "room1", user := "alice", «to» := "bob",
            content := "hi", createdAt := 5 }
    ∧ (postMessage cpId kW ivW 5 .ioError ⟨[], []⟩ "room1" "alice" "bob" "hi").state.disk
        = []
    ∧ (postMessage cpId kW ivW 5 .ioError ⟨[], []⟩ "room1" "alice" "bob" "hi").state.messages
        ≠ [] := by
  refine ⟨rfl, rfl, ?_⟩
  rw [postMessage_state_messages]
  simp

/-- C1 (amended): a write error during `saveMessages` is caught and logged
inside `saveMessages`; `postMessage` nevertheless appends the encrypted
record to the in-memory log, leaves the backing file unchanged, publishes
the plaintext form to both channels, and returns the plaintext Message to
its caller — the caller observes success even though the durable write
failed. -/
theorem C1_amended_post_succeeds_despite_write_error (P : CryptoPrims)
    (k iv : List Byte) (now : Nat) (s : ServerState)
    (roomId user «to» content : String) :
    (postMessage P k iv now .ioError s roomId user «to» content).returned
        = { id := s.messages.length, roomId := roomId, user := user,
            «to» := «to», content := content, createdAt := now }
    ∧ (postMessage P k iv now .ioError s roomId user «to» content).state.messages
        = s.messages ++
          [{ id := s.messages.length, roomId := roomId, user := user,
             «to» := «to», content := encrypt P k iv content,
             createdAt := now }]
    ∧ (postMessage P k iv now .ioError s roomId user «to» content).state.disk
        = s.disk
    ∧ (postMessage P k iv now .ioError s roomId user «to» content).published
        = [("MESSAGE_ADDED_" ++ roomId,
            { id := s.messages.length, roomId := roomId, user := user,
              «to» := «to», content := content, createdAt := now }),
           ("MESSAGE_TO_" ++ «to»,
            { id := s.messages.length, roomId := roomId, user := user,
              «to» := «to», content := content, createdAt := now })] :=
  ⟨rfl, rfl, rfl, rfl⟩

/-- C4: decrypting the token produced by encrypting any plaintext (colons
included) under the same key and a fresh 16-byte IV returns exactly that
plaintext. -/
theorem C4_decrypt_encrypt_roundtrip (P : CryptoPrims) (hP : GoodCrypto P)
    (k iv : List Byte) (hiv : iv.length = 16) (text : String) :
    decrypt P k (encrypt P k iv text) = text :=
  decrypt_encrypt P hP k iv hiv text

/-- C4 (witness): the round trip evaluated at the concrete primitives, a
concrete key and IV, and a plaintext containing the `':'` delimiter. -/
theorem C4_witness :
    GoodCrypto cpId ∧ ivW.length = 16
      ∧ decrypt cpId kW (encrypt cpId kW ivW "h:i") = "h:i" :=
  ⟨cpId_good, rfl, C4_decrypt_encrypt_roundtrip cpId cpId_good kW ivW rfl "h:i"⟩

/-- C5: posting `("room1","alice","bob","hi")` to the empty store returns a
Message carrying the plaintext; the subsequent query returns exactly one
record with content `"hi"`; the record held in the store (and written to
the backing file) carries the encrypted token, which differs from
`"hi"`. -/
theorem C5_post_stores_ciphertext_query_decrypts (P : CryptoPrims)
    (hP : GoodCrypto P) (k iv : List Byte) (hiv : iv.length = 16) (now : Nat) :
    (postMessage P k iv now .ok ⟨[], []⟩ "room1" "alice" "bob" "hi").returned.content
        = "hi"
    ∧ messagesResolver P k
        (postMessage P k iv now .ok ⟨[], []⟩ "room1" "alice" "bob" "hi").state.messages
        "room1"
        = [{ id := 0, roomId := "room1", user := "alice", «to» := "bob",
             content := "hi", createdAt := now }]
    ∧ (postMessage P k iv now .ok ⟨[], []⟩ "room1" "alice" "bob" "hi").state.messages
        = [{ id := 0, roomId := "room1", user := "alice", «to» := "bob",
             content := encrypt P k iv "hi", createdAt := now }]
    ∧ (postMessage P k iv now .ok ⟨[], []⟩ "room1" "alice" "bob" "hi").state.disk
        = (postMessage P k iv now .ok ⟨[], []⟩ "room1" "alice" "bob" "hi").state.messages
    ∧ encrypt P k iv "hi" ≠ "hi" := by
  have hres : messagesResolver P k
      (postMessage P k iv now .ok ⟨[], []⟩ "room1" "alice" "bob" "hi").state.messages
      "room1"
      = [{ id := 0, roomId := "room1", user := "alice", «to» := "bob",
           content := decrypt P k (encrypt P k iv "hi"), createdAt := now }] := rfl
  refine ⟨rfl, ?_, rfl, rfl, ?_⟩
  · rw [hres, decrypt_encrypt P hP k iv hiv]
  · intro hcontra
    have hlen : (encrypt P k iv "hi").data.length = ("hi" : String).data.length :=
      congrArg (fun s : String => s.data.length) hcontra
    have h2 : ("hi" : String).data.length = 2 := rfl
    have henc : (encrypt P k iv "hi").data.length
        = (bytesToHex iv).length + 1
          + (bytesToHex (cbcEncryptBytes P k iv (P.utf8Enc "hi"))).length := by
      show (bytesToHex iv ++ ':'
        :: bytesToHex (cbcEncryptBytes P k iv (P.utf8Enc "hi"))).length = _
      rw [List.length_append, List.length_cons]
      omega
    rw [henc, length_bytesToHex, hiv] at hlen
    omega

/-- C5 (witness): the scenario evaluated at the concrete primitives. -/
theorem C5_witness :
    GoodCrypto cpId ∧ ivW.length = 16
      ∧ messagesResolver cpId kW
          (postMessage cpId kW ivW 5 .ok ⟨[], []⟩ "room1" "alice" "bob" "hi").state.messages
          "room1"
          = [{ id := 0, roomId := "room1", user := "alice", «to» := "bob",
               content := "hi", createdAt := 5 }]
      ∧ encrypt cpId kW ivW "hi" ≠ "hi" :=
  ⟨cpId_good, rfl,
    (C5_post_stores_ciphertext_query_decrypts cpId cpId_good kW ivW rfl 5).2.1,
    (C5_post_stores_ciphertext_query_decrypts cpId cpId_good kW ivW rfl 5).2.2.2.2⟩

/-- C6: the `messages` query returns exactly the records whose `roomId`
equals the argument, in log order (the content-erased projection of the
result is a sublist of the content-erased log), each mapped to a fresh
record with decrypted content; it never returns a record of another
room. -/
theorem C6_query_room_isolation (P : CryptoPrims) (k : List Byte)
    (msgs : List Message) (roomId : String) :
    (∀ m ∈ messagesResolver P k msgs roomId, m.roomId = roomId)
    ∧ List.Sublist ((messagesResolver P k msgs roomId).map eraseContent)
        (msgs.map eraseContent)
    ∧ (∀ m ∈ messagesResolver P k msgs roomId, ∃ orig ∈ msgs,
        orig.roomId = roomId
        ∧ m = { orig with content := decrypt P k orig.content })
    ∧ (∀ orig ∈ msgs, orig.roomId = roomId →
        { orig with content := decrypt P k orig.content }
          ∈ messagesResolver P k msgs roomId) := by
  refine ⟨?_, ?_, ?_, ?_⟩
  · intro m hm
    rcases List.mem_map.1 hm with ⟨orig, horig, rfl⟩
    have h := (List.mem_filter.1 horig).2
    simpa using h
  · have h1 : (messagesResolver P k msgs roomId).map eraseContent
        = (msgs.filter (fun m => m.roomId == roomId)).map eraseContent := by
      rw [messagesResolver, List.map_map]
      rfl
    rw [h1]
    exact List.Sublist.map eraseContent (List.filter_sublist msgs)
  · intro m hm
    rcases List.mem_map.1 hm with ⟨orig, horig, rfl⟩
    rcases List.mem_filter.1 horig with ⟨h1, h2⟩
    exact ⟨orig, h1, by simpa using h2, rfl⟩
  · intro orig ho hr
    exact List.mem_map.2 ⟨orig, List.mem_filter.2 ⟨ho, by simpa using hr⟩, rfl⟩

/-- C6 (witness): the membership clauses evaluated on a concrete log. -/
theorem C6_witness :
    ({ id := 0, roomId := "room1", user := "alice", «to» := "bob",
       content := sentinel, createdAt := 5 } : Message)
        ∈ messagesResolver cpId kW msgsC2 "room1"
    ∧ ∃ orig ∈ msgsC2, orig.roomId = "room1"
        ∧ ({ id := 0, roomId := "room1", user := "alice", «to» := "bob",
             content := sentinel, createdAt := 5 } : Message)
          = { orig with content := decrypt cpId kW orig.content } :=
  ⟨by decide,
    (C6_query_room_isolation cpId kW msgsC2 "room1").2.2.1 _ (by decide)⟩

/-- C7: across any sequence of `postMessage` calls, the returned `id`s are
the successive log lengths at append time — strictly increasing, unique,
never reused — and when the clock readings are non-decreasing (the wall
clock), so are the returned `createdAt` stamps. -/
theorem C7_post_ids_strictly_increasing (P : CryptoPrims) (k : List Byte)
    (s : ServerState) (calls : List PostCall) :
    (∀ (i : Nat) (m : Message), (runPosts P k s calls).2[i]? = some m →
        m.id = s.messages.length + i)
    ∧ (∀ (i j : Nat) (mi mj : Message), (runPosts P k s calls).2[i]? = some mi →
        (runPosts P k s calls).2[j]? = some mj → i < j → mi.id < mj.id)
    ∧ (List.Pairwise (· ≤ ·) (calls.map PostCall.now) →
        List.Pairwise (· ≤ ·) ((runPosts P k s calls).2.map Message.createdAt)) := by
  refine ⟨?_, ?_, ?_⟩
  · exact fun i m h => runPosts_getElem_id P k calls s i m h
  · intro i j mi mj hi hj hij
    have h1 := runPosts_getElem_id P k calls s i mi hi
    have h2 := runPosts_getElem_id P k calls s j mj hj
    omega
  · intro hnow
    rw [runPosts_createdAt]
    exact hnow

/-- C7 (witness): two consecutive posts with clock readings 3 and 5. -/
theorem C7_witness :
    (runPosts cpId kW ⟨[], []⟩ callsW).2[0]? = some m0W
    ∧ (runPosts cpId kW ⟨[], []⟩ callsW).2[1]? = some m1W
    ∧ m0W.id < m1W.id
    ∧ List.Pairwise (· ≤ ·) (callsW.map PostCall.now)
    ∧ List.Pairwise (· ≤ ·)
        ((runPosts cpId kW ⟨[], []⟩ callsW).2.map Message.createdAt) := by
  refine ⟨by decide, by decide, ?_, by decide, ?_⟩
  · exact (C7_post_ids_strictly_increasing cpId kW ⟨[], []⟩ callsW).2.1
      0 1 m0W m1W (by decide) (by decide) (by decide)
  · exact (C7_post_ids_strictly_increasing cpId kW ⟨[], []⟩ callsW).2.2 (by decide)

/-- C9 (counterexample): a backing file whose contents parse as JSON but
are not an array — e.g. the file text `"oops"`, a JSON string — is loaded
verbatim into the `messages` binding rather than being replaced by the
empty log, and a subsequent `messages` query throws
(`messages.filter is not a function`), contradicting the claim that every
corrupt backing file yields a well-formed empty log. -/
theorem C9_counterexample :
    loadMessages (.content (some .nonArray)) = .nonArray
    ∧ loadMessages (.content (some .nonArray)) ≠ .msgArray []
    ∧ messagesResolverJs cpId kW (loadMessages (.content (some .nonArray)))
        "room1" = none :=
  ⟨rfl, by decide, rfl⟩

/-- C9 (amended): startup never fails: a missing file, an unreadable file,
and a file `JSON.parse` throws on each yield the empty log (with a logged
warning), and queries and posts then operate on that well-formed empty
log.  A readable file that parses to a non-array JSON value, however, is
installed as the store as-is and later operations fail on it. -/
theorem C9_amended_startup_recovers (P : CryptoPrims) (k iv : List Byte)
    (now : Nat) (w : WriteOutcome) (roomId user «to» content : String) :
    loadMessages .absent = .msgArray []
    ∧ loadMessages .readError = .msgArray []
    ∧ loadMessages (.content none) = .msgArray []
    ∧ messagesResolverJs P k (loadMessages .absent) roomId = some []
    ∧ messagesResolverJs P k (loadMessages .readError) roomId = some []
    ∧ messagesResolverJs P k (loadMessages (.content none)) roomId = some []
    ∧ postMessageJs P k iv now w (loadMessages .absent) [] roomId user «to» content
        = some (postMessage P k iv now w ⟨[], []⟩ roomId user «to» content) :=
  ⟨rfl, rfl, rfl, rfl, rfl, rfl, rfl⟩

/-- C10: the `messages` query is read-only: running any sequence of
queries leaves the state — in-memory log and backing file — exactly as it
was, and a query over the unchanged log returns the same result as the
same query before the sequence. -/
theorem C10_queries_never_mutate (P : CryptoPrims) (k : List Byte)
    (s : ServerState) (rids : List String) (roomId : String) :
    runQueries P k s rids = s
    ∧ (queryStep P k (runQueries P k s rids) roomId).1
        = (queryStep P k s roomId).1
    ∧ (runQueries P k s rids).messages = s.messages := by
  have h : ∀ (rs : List String) (t : ServerState), runQueries P k t rs = t := by
    intro rs
    induction rs with
    | nil => intro t; rfl
    | cons r rs ih => intro t; exact ih t
  refine ⟨h rids s, ?_, ?_⟩
  · rw [h rids s]
  · rw [h rids s]

/-- C2 (counterexample): two retained messages in the same room with equal
`createdAt` (5): the first goes to `"bob"`, the later one to `"carol"`.
The claim says the later one in log order is selected on a tie; the view
instead keeps the earlier one — the replacement condition
`new Date(m.createdAt) > new Date(rooms[m.roomId].createdAt)` is strict,
so an equal timestamp does not replace.  The summary shows counterpart
`"bob"`, not `"carol"`. -/
theorem C2_counterexample :
    user_chats_view cpId kW "alice" msgsC2
        = [{ room_id := "room1", contact_name := "bob",
             last_message := sentinel, created_at := 5 }]
    ∧ (user_chats_view cpId kW "alice" msgsC2).map UserChat.contact_name
        ≠ ["carol"]
    ∧ msgsC2.getLast?.map Message.«to» = some "carol" :=
  ⟨by decide, by decide, by decide⟩

/-- C2 (amended): `user_chats_view` groups the retained messages by
`roomId` (room ids in the output are pairwise distinct) and selects, for
each summary, a message that is maximal by `createdAt` within its room;
on equal `createdAt` the message appearing EARLIEST in log/append order
wins (everything before it in its room is strictly older, everything
after it is at most as new), and a tie never causes a crash —
`user_chats_view` is a total function. -/
theorem C2_amended_latest_per_room_earliest_tie (P : CryptoPrims)
    (k : List Byte) (user : String) (msgs : List Message) :
    ((user_chats_view P k user msgs).map UserChat.room_id).Nodup
    ∧ ∀ c ∈ user_chats_view P k user msgs,
        ∃ m l1 l2,
          (retainedMsgs user msgs).filter (fun x => x.roomId == c.room_id)
              = l1 ++ m :: l2
          ∧ (∀ x ∈ l1, x.createdAt < m.createdAt)
          ∧ (∀ x ∈ l2, x.createdAt ≤ m.createdAt)
          ∧ c = mkUserChat P k user m := by
  have hkeys : ∀ p ∈ roomsFold [] (retainedMsgs user msgs), p.1 = p.2.roomId :=
    roomsFold_key_eq _ [] (by simp)
  have hnd : ((roomsFold [] (retainedMsgs user msgs)).map Prod.fst).Nodup :=
    roomsFold_keys_nodup _ [] (by simp)
  have hperm := List.perm_insertionSort
    (fun a b : UserChat => b.created_at ≤ a.created_at)
    ((roomsFold [] (retainedMsgs user msgs)).map (fun rm => mkUserChat P k user rm.2))
  constructor
  · have hmapmap : ((roomsFold [] (retainedMsgs user msgs)).map
        (fun rm => mkUserChat P k user rm.2)).map UserChat.room_id
        = (roomsFold [] (retainedMsgs user msgs)).map Prod.fst := by
      rw [List.map_map]
      apply List.map_congr_left
      intro p hp
      exact (hkeys p hp).symm
    have hpermmap := hperm.map UserChat.room_id
    rw [hmapmap] at hpermmap
    exact hpermmap.nodup_iff.2 hnd
  · intro c hc
    have hc' : c ∈ (roomsFold [] (retainedMsgs user msgs)).map
        (fun rm => mkUserChat P k user rm.2) := hperm.mem_iff.1 hc
    rcases List.mem_map.1 hc' with ⟨⟨r0, m0⟩, hp, rfl⟩
    have hkey : r0 = m0.roomId := hkeys _ hp
    have hlk : lookupRoom (roomsFold [] (retainedMsgs user msgs)) r0 = some m0 :=
      lookupRoom_of_mem _ _ _ hnd hp
    rw [lookupRoom_roomsFold] at hlk
    have hfm : firstMaxByCreated ((retainedMsgs user msgs).filter
        (fun x => x.roomId == r0)) = some m0 := hlk
    rcases firstMaxByCreated_spec _ _ hfm with ⟨l1, l2, heq, h1, h2⟩
    refine ⟨m0, l1, l2, ?_, h1, h2, rfl⟩
    show (retainedMsgs user msgs).filter (fun x => x.roomId == m0.roomId)
        = l1 ++ m0 :: l2
    rw [← hkey]
    exact heq

/-- C2 (witness): the amended selection property evaluated on the concrete
tied log: the single summary row comes from the earlier of the two
equally-timestamped messages. -/
theorem C2_witness :
    ({ room_id := "room1", contact_name := "bob", last_message := sentinel,
       created_at := 5 } : UserChat) ∈ user_chats_view cpId kW "alice" msgsC2
    ∧ ∃ m l1 l2,
        (retainedMsgs "alice" msgsC2).filter
            (fun x => x.roomId ==
              ({ room_id := "room1", contact_name := "bob",
                 last_message := sentinel, created_at := 5 } : UserChat).room_id)
            = l1 ++ m :: l2
        ∧ (∀ x ∈ l1, x.createdAt < m.createdAt)
        ∧ (∀ x ∈ l2, x.createdAt ≤ m.createdAt)
        ∧ ({ room_id := "room1", contact_name := "bob",
             last_message := sentinel, created_at := 5 } : UserChat)
            = mkUserChat cpId kW "alice" m :=
  ⟨by decide,
    (C2_amended_latest_per_room_earliest_tie cpId kW "alice" msgsC2).2 _ (by decide)⟩

/-- C3 (counterexample): a token whose IV part carries the non-hex
characters `zz` after 32 valid hex digits is malformed in the claim's
sense (non-hex parts), yet `decrypt` returns the original plaintext
`"hi"`, not the sentinel: `Buffer.from(part, 'hex')` silently truncates
at the first non-hex pair, so the code recovers a valid 16-byte IV. -/
theorem C3_counterexample :
    decrypt cpId kW tokC3 = "hi"
    ∧ "hi" ≠ sentinel
    ∧ hexDigitVal 'z' = none
    ∧ 'z' ∈ (jsSplit ':' tokC3.data).headI :=
  ⟨by decide, by decide, rfl, by decide⟩

/-- C3 (amended): `decrypt` is total — every failure inside the pipeline
is caught and mapped to the fixed sentinel — and it returns the sentinel
whenever the IV part does not hex-decode (with silent truncation) to
exactly 16 bytes, and whenever CBC decryption of the decoded ciphertext
fails its length or padding check; every non-sentinel result is the
decoded output of a successful CBC decryption.  Hex parsing truncates
rather than rejects, so a malformed token is not guaranteed the
sentinel, and a wrong-key token yields the sentinel only when its
padding check fails. -/
theorem C3_amended_decrypt_total_sentinel_on_failure (P : CryptoPrims)
    (k : List Byte) (text : String) :
    (decrypt P k text = sentinel
      ∨ ∃ bs, nodeCbcDecrypt P k (ivOf text) (ctOf text) = some bs
          ∧ decrypt P k text = P.utf8DecLossy bs)
    ∧ ((ivOf text).length ≠ 16 → decrypt P k text = sentinel)
    ∧ (nodeCbcDecrypt P k (ivOf text) (ctOf text) = none →
        decrypt P k text = sentinel) := by
  cases hsp : jsSplit ':' text.data with
  | nil => exact absurd hsp (jsSplit_ne_nil _ _)
  | cons ivPart rest =>
    have hiv : ivOf text = hexDecode ivPart := by
      rw [ivOf, hsp]
      rfl
    have hct : ctOf text = hexDecode (joinWith ':' rest) := by
      rw [ctOf, hsp]
      rfl
    have hdec : decrypt P k text
        = (if (hexDecode ivPart).length = 16 then
            match nodeCbcDecrypt P k (hexDecode ivPart)
                (hexDecode (joinWith ':' rest)) with
            | some pt => P.utf8DecLossy pt
            | none => sentinel
          else sentinel) := by
      unfold decrypt
      rw [hsp]
    rw [hiv, hct, hdec]
    by_cases h16 : (hexDecode ivPart).length = 16
    · rw [if_pos h16]
      cases hnd : nodeCbcDecrypt P k (hexDecode ivPart)
          (hexDecode (joinWith ':' rest)) with
      | none => exact ⟨Or.inl rfl, fun _ => rfl, fun _ => rfl⟩
      | some bs =>
        exact ⟨Or.inr ⟨bs, rfl, rfl⟩, fun hc => absurd h16 hc,
          fun hc => Option.noConfusion hc⟩
    · rw [if_neg h16]
      exact ⟨Or.inl rfl, fun _ => rfl, fun _ => rfl⟩

/-- C3 (witness): the sentinel clause evaluated at a token whose IV part
decodes to fewer than 16 bytes. -/
theorem C3_witness :
    (ivOf "xx").length ≠ 16 ∧ decrypt cpId kW "xx" = sentinel :=
  ⟨by decide,
    (C3_amended_decrypt_total_sentinel_on_failure cpId kW "xx").2.1 (by decide)⟩

/-- C8: the rows of `user_chats_view` are sorted descending by
`created_at` (most recent conversation first), and each row's
counterpart is the recipient when the queried user is the sender of the
selected message, otherwise its sender. -/
theorem C8_view_sorted_desc_and_counterpart (P : CryptoPrims)
    (k : List Byte) (user : String) (msgs : List Message) :
    List.Pairwise (fun a b => b.created_at ≤ a.created_at)
      (user_chats_view P k user msgs)
    ∧ ∀ c ∈ user_chats_view P k user msgs,
        ∃ m ∈ msgs, (m.user = user ∨ m.«to» = user)
          ∧ c.room_id = m.roomId
          ∧ c.contact_name = (if m.user = user then m.«to» else m.user)
          ∧ c.last_message = decrypt P k m.content
          ∧ c.created_at = m.createdAt := by
  constructor
  · haveI : IsTotal UserChat (fun a b => b.created_at ≤ a.created_at) :=
      ⟨fun a b => Nat.le_total b.created_at a.created_at⟩
    haveI : IsTrans UserChat (fun a b => b.created_at ≤ a.created_at) :=
      ⟨fun a b c h1 h2 => Nat.le_trans h2 h1⟩
    exact List.sorted_insertionSort _ _
  · intro c hc
    have hperm := List.perm_insertionSort
      (fun a b : UserChat => b.created_at ≤ a.created_at)
      ((roomsFold [] (retainedMsgs user msgs)).map
        (fun rm => mkUserChat P k user rm.2))
    have hc' := hperm.mem_iff.1 hc
    rcases List.mem_map.1 hc' with ⟨⟨r0, m0⟩, hp, rfl⟩
    have hm0 : m0 ∈ retainedMsgs user msgs := by
      rcases roomsFold_mem _ [] _ hp with h | h
      · exact absurd h (List.not_mem_nil _)
      · exact h
    rcases List.mem_filter.1 hm0 with ⟨hmem, hcond⟩
    refine ⟨m0, hmem, ?_, rfl, rfl, rfl, rfl⟩
    simpa using hcond

/-- C8 (witness): the counterpart clause evaluated on the concrete log. -/
theorem C8_witness :
    ({ room_id := "room1", contact_name := "bob", last_message := sentinel,
       created_at := 5 } : UserChat) ∈ user_chats_view cpId kW "alice" msgsC2
    ∧ ∃ m ∈ msgsC2, (m.user = "alice" ∨ m.«to» = "alice")
        ∧ ({ room_id := "room1", contact_name := "bob",
             last_message := sentinel, created_at := 5 } : UserChat).room_id
            = m.roomId
        ∧ ({ room_id := "room1", contact_name := "bob",
             last_message := sentinel, created_at := 5 } : UserChat).contact_name
            = (if m.user = "alice" then m.«to» else m.user)
        ∧ ({ room_id := "room1", contact_name := "bob",
             last_message := sentinel, created_at := 5 } : UserChat).last_message
            = decrypt cpId kW m.content
        ∧ ({ room_id := "room1", contact_name := "bob",
             last_message := sentinel, created_at := 5 } : UserChat).created_at
            = m.createdAt :=
  ⟨by decide,
    (C8_view_sorted_desc_and_counterpart cpId kW "alice" msgsC2).2 _ (by decide)⟩

end ConnectUs
